import Mathlib

/-!
Shallow embedding of the `dailylog` journaling tool (Rust sources
`src/entry.rs`, `src/summary.rs`, `src/config.rs`) and proofs about its
entry-parsing, entry-formatting, log-appending, title-extraction and
summary-aggregation logic.

Modelling conventions:
* Rust `String`/`&str` values are modelled as `List Char` (`Str` below),
  so that all string operations are fully executable, structurally
  recursive definitions.
* Calendar dates are modelled as integers (days on a time line); the only
  property of `chrono::NaiveDate` the summary code relies on is that
  subtracting one day shifts the weekday cyclically, which the `weekday`
  function below captures.  The path `log_dir/YYYY-MM-DD.md` computed by
  `get_log_file_path_for_date` is injective in the date, so the file
  system is modelled directly as a map from dates to optional file
  contents (`none` = the file does not exist).
* The hidden wall clock read by `format_entry` is modelled as an explicit
  `Clock` (hour/minute) argument.
* The `f64` consistency percentage is modelled with exact rationals; all
  values appearing in the claims (3/5*100 and similar) are computed
  exactly by the `f64` code path as well.
* IO never fails in the model: the claims under study only concern the
  successful behaviour of file reads and appends.
-/

namespace Dailylog

/-- Strings are lists of characters. -/
abbrev Str := List Char

/-- Rust `char::is_whitespace` (the inputs relevant to this repository are
ASCII, where this agrees with `Char.isWhitespace`). -/
def isWS (c : Char) : Bool := c.isWhitespace

/-- Rust `str::trim_start`: drop leading whitespace. -/
def trimStart (s : Str) : Str := s.dropWhile isWS

/-- Rust `str::trim_end`: drop trailing whitespace. -/
def trimEnd (s : Str) : Str := (s.reverse.dropWhile isWS).reverse

/-- Rust `str::trim`: drop leading and trailing whitespace. -/
def trim (s : Str) : Str := trimEnd (trimStart s)

/-- Split a string at every occurrence of the character `c`; the result
always has at least one piece (`str::split(char)` semantics). -/
def splitOnChar (c : Char) : Str → List Str
  | [] => [[]]
  | x :: xs =>
    match splitOnChar c xs with
    | [] => [[]]
    | y :: ys => if x = c then [] :: y :: ys else (x :: y) :: ys

/-- Drop one trailing carriage return, as `str::lines` does on the pieces
that were terminated by a line feed. -/
def stripTrailingCR (s : Str) : Str :=
  if s.getLast? = some '\r' then s.dropLast else s

/-- Rust `str::lines`: split at every line feed, strip a carriage return
at the end of every terminated line, and drop a final empty piece coming
from a trailing line feed. -/
def rustLines (s : Str) : List Str :=
  if s = [] then []
  else
    let parts := splitOnChar '\n' s
    parts.dropLast.map stripTrailingCR ++
      (if parts.getLastD [] = [] then [] else [parts.getLastD []])

/-- Split a string at the first occurrence of `sep`, returning the pieces
before and after it (`str::find` followed by slicing); `none` when `sep`
does not occur.  This is the "first occurrence" notion the specification
speaks about. -/
def splitFirst (sep : Str) : Str → Option (Str × Str)
  | [] => if sep = [] then some ([], []) else none
  | x :: xs =>
    if sep.isPrefixOf (x :: xs) then some ([], List.drop sep.length (x :: xs))
    else (splitFirst sep xs).map fun p => (x :: p.1, p.2)

/-- Rust `str::contains(sep)`: does `sep` occur as a contiguous
substring? -/
def containsSub (sep : Str) : Str → Bool
  | [] => sep.isPrefixOf []
  | x :: xs => sep.isPrefixOf (x :: xs) || containsSub sep xs

/-- Rust `str::split(" - ")`, specialised to the only separator the
repository ever splits on: scan left to right, cut at every
non-overlapping occurrence of `" - "`. -/
def splitDash : Str → List Str
  | c1 :: c2 :: c3 :: rest =>
    if c1 = ' ' ∧ c2 = '-' ∧ c3 = ' ' then
      [] :: splitDash rest
    else
      match splitDash (c2 :: c3 :: rest) with
      | [] => [[c1]]
      | y :: ys => (c1 :: y) :: ys
  | [c1, c2] =>
    match splitDash [c2] with
    | [] => [[c1]]
    | y :: ys => (c1 :: y) :: ys
  | [c1] => [[c1]]
  | [] => [[]]

/-- Scan of `entry.rs::parse_entry`'s `for` loop: starting at index `i`,
find the first blank line and return the index just after it; `1` when no
line is blank (the Rust loop leaves `body_start` at its initial value). -/
def find_body_start : List Str → Nat → Nat
  | [], _ => 1
  | l :: rest, i => if trim l = [] then i + 1 else find_body_start rest (i + 1)

/-- `entry.rs::parse_entry`: split raw editor text into an optional title
(the trimmed first line) and a body (the lines after the first blank
line, joined and trimmed). -/
def parse_entry (content : Str) : Option Str × Str :=
  let lines := rustLines content
  if lines = [] then (none, [])
  else
    let title := trim (lines.headD [])
    if title = [] then (none, content)
    else
      -- the Rust source's `if body_start == 1 && lines.len() > 1` block
      -- assigns `body_start = 1` again and is a no-op
      let body_start := find_body_start (lines.drop 1) 1
      let body :=
        if body_start < lines.length then
          trim (List.intercalate ("\n".data) (lines.drop body_start))
        else []
      (some title, body)

/-- Decimal digits of a natural number, most significant first
(fuel-based so that it is structurally recursive and kernel-reducible). -/
def natDigitsCore : Nat → Nat → Str → Str
  | 0, _, acc => acc
  | fuel + 1, n, acc =>
    if n < 10 then Char.ofNat (48 + n % 10) :: acc
    else natDigitsCore fuel (n / 10) (Char.ofNat (48 + n % 10) :: acc)

/-- Decimal representation of a natural number. -/
def natDigits (n : Nat) : Str := natDigitsCore (n + 1) n []

/-- Zero-padded two-digit decimal rendering, as `chrono`'s `%H` and `%M`
format specifiers produce. -/
def pad2 (n : Nat) : Str := if n < 10 then '0' :: natDigits n else natDigits n

/-- The local wall-clock time `format_entry` reads (`Local::now()`),
injected explicitly. -/
structure Clock where
  hour : Nat
  minute : Nat

/-- The `%H:%M` timestamp string. -/
def timestamp (now : Clock) : Str := pad2 now.hour ++ [':'] ++ pad2 now.minute

/-- `entry.rs::format_entry`: render a parsed entry as a markdown
fragment, with a timestamp header when a non-empty title is present. -/
def format_entry (title : Option Str) (body : Str) (now : Clock) : Str :=
  match title with
  | some t =>
    if t = [] then
      -- Rust's `Some(title) if !title.is_empty()` guard fails here and
      -- control falls to the `_` arm
      if body = [] then [] else body ++ ['\n']
    else
      if body = [] then
        ("## ".data) ++ timestamp now ++ (" - ".data) ++ t ++ ['\n']
      else
        ("## ".data) ++ timestamp now ++ (" - ".data) ++ t ++ ['\n', '\n'] ++ body ++ ['\n']
  | none => if body = [] then [] else body ++ ['\n']

/-- `entry.rs::append_to_log`: parse, format, and — unless the fragment is
blank — append the fragment plus one `writeln!` newline to the target
file, creating it when absent.  The file is modelled as `Option Str`
(`none` = absent); the function returns the new file state. -/
def append_to_log (file : Option Str) (content : Str) (now : Clock) : Option Str :=
  let p := parse_entry content
  let formatted_entry := format_entry p.1 p.2 now
  if trim formatted_entry ≠ [] then
    some (file.getD [] ++ formatted_entry ++ ['\n'])
  else file

/-- The title contributed by one line of log content in
`summary.rs::extract_entry_titles` (each loop iteration pushes at most
one title). -/
def line_title (line : Str) : Option Str :=
  let trimmed := trim line
  if ("## ".data).isPrefixOf trimmed && containsSub (" - ".data) trimmed then
    (splitDash trimmed)[1]?
  else if ("# ".data).isPrefixOf trimmed || ("### ".data).isPrefixOf trimmed then
    some (trim (trimmed.dropWhile (fun c => c == '#')))
  else none

/-- `summary.rs::extract_entry_titles`: collect the titles of all header
lines, in order. -/
def extract_entry_titles (content : Str) : List Str :=
  (rustLines content).filterMap line_title

/-- Days of the week (`chrono::Weekday`). -/
inductive Weekday where
  | mon | tue | wed | thu | fri | sat | sun
deriving DecidableEq

/-- The weekday of an integer date; consecutive dates cycle through the
week, day `0` being a Monday. -/
def weekday (d : Int) : Weekday :=
  match (d % 7).toNat with
  | 0 => .mon
  | 1 => .tue
  | 2 => .wed
  | 3 => .thu
  | 4 => .fri
  | 5 => .sat
  | _ => .sun

/-- `summary.rs::parse_weekday`: case-insensitive lookup of full English
weekday names and their three-letter abbreviations. -/
def parse_weekday (day_str : Str) : Option Weekday :=
  let l := day_str.map Char.toLower
  if l = ("monday".data) ∨ l = ("mon".data) then some .mon
  else if l = ("tuesday".data) ∨ l = ("tue".data) then some .tue
  else if l = ("wednesday".data) ∨ l = ("wed".data) then some .wed
  else if l = ("thursday".data) ∨ l = ("thu".data) then some .thu
  else if l = ("friday".data) ∨ l = ("fri".data) then some .fri
  else if l = ("saturday".data) ∨ l = ("sat".data) then some .sat
  else if l = ("sunday".data) ∨ l = ("sun".data) then some .sun
  else none

/-- The part of `config.rs::Config` the summary aggregator consumes. -/
structure Config where
  summary_days : List Str

/-- `config.rs::default_summary_days`: Monday through Friday. -/
def default_summary_days : List Str :=
  [("monday".data), ("tuesday".data), ("wednesday".data), ("thursday".data), ("friday".data)]

/-- The three accumulators of `summary.rs::summarize_logs`'s collection
loop. -/
structure ScanState where
  total_entries : Nat
  total_eligible_days : Nat
  entries_by_day : List (Int × Str)
deriving DecidableEq

/-- One iteration of the collection loop of `summary.rs::summarize_logs`
(`for i in 0..days`): if the date `today - i` falls on an allowed
weekday it is eligible; if moreover its file exists with non-blank
content, it is counted and recorded. -/
def scan_step (fs : Int → Option Str) (allowed_weekdays : List Weekday) (today : Int)
    (st : ScanState) (i : Nat) : ScanState :=
  let date := today - (i : Int)
  if allowed_weekdays.contains (weekday date) then
    let st1 : ScanState :=
      { st with total_eligible_days := st.total_eligible_days + 1 }
    match fs date with
    | some content =>
      if trim content ≠ [] then
        { st1 with
            total_entries := st1.total_entries + 1,
            entries_by_day := st1.entries_by_day ++ [(date, content)] }
      else st1
    | none => st1
  else st

/-- The whole collection loop of `summary.rs::summarize_logs`. -/
def summary_scan (fs : Int → Option Str) (today : Int) (days : Nat)
    (allowed_weekdays : List Weekday) : ScanState :=
  (List.range days).foldl (scan_step fs allowed_weekdays today) ⟨0, 0, []⟩

/-- The fallback display loop of `summary.rs::summarize_logs` (lines
157-164): print the trimmed first non-blank line of the lines handed to
it and stop. -/
def day_display_fallback : List Str → List Str
  | [] => []
  | l :: rest => if trim l ≠ [] then [trim l] else day_display_fallback rest

/-- The per-day display of `summary.rs::summarize_logs`: the extracted
titles, or — when there are none — the fallback applied to the first two
lines of the content (`content.lines().take(2)`). -/
def day_display (content : Str) : List Str :=
  let titles := extract_entry_titles content
  if titles ≠ [] then titles
  else day_display_fallback ((rustLines content).take 2)

/-- Output of `summary.rs::summarize_logs`: either the "no entries"
message or the report with its statistics and per-day display lines. -/
inductive SummaryOutput where
  | noEntries (days : Nat)
  | report (total_entries : Nat) (total_eligible_days : Nat)
      (consistency_percent : ℚ) (daily : List (Int × List Str))
deriving DecidableEq

/-- `summary.rs::summarize_logs`: resolve the allowed weekdays from the
configuration, scan the `days`-day window ending today, and report the
statistics and per-day displays (or "no entries"). -/
def summarize_logs (fs : Int → Option Str) (today : Int) (days : Nat)
    (config : Config) : SummaryOutput :=
  let allowed_weekdays := config.summary_days.filterMap parse_weekday
  let st := summary_scan fs today days allowed_weekdays
  if st.entries_by_day = [] then .noEntries days
  else
    .report st.total_entries st.total_eligible_days
      ((st.total_entries : ℚ) / (st.total_eligible_days : ℚ) * 100)
      (st.entries_by_day.map fun p => (p.1, day_display p.2))

/-- Eligibility of window index `i` (specification side): the weekday of
`today - i` is in the allowed set. -/
def eligibleB (allowed_weekdays : List Weekday) (today : Int) (i : Nat) : Bool :=
  allowed_weekdays.contains (weekday (today - (i : Int)))

/-- Presence of an entry for window index `i` (specification side):
eligible, file exists, and its trimmed content is non-empty. -/
def presentB (fs : Int → Option Str) (allowed_weekdays : List Weekday) (today : Int)
    (i : Nat) : Bool :=
  eligibleB allowed_weekdays today i &&
    match fs (today - (i : Int)) with
    | some content => !(trim content == [])
    | none => false

/-- The recorded `(date, content)` pair for window index `i`, when
present (specification side). -/
def record_of (fs : Int → Option Str) (allowed_weekdays : List Weekday) (today : Int)
    (i : Nat) : Option (Int × Str) :=
  if eligibleB allowed_weekdays today i then
    match fs (today - (i : Int)) with
    | some content =>
      if !(trim content == []) then some (today - (i : Int), content) else none
    | none => none
  else none

/-! ### Lemmas about whitespace trimming -/

theorem dropWhile_head_not {α : Type} {p : α → Bool} {s t : List α} {c : α}
    (h : s.dropWhile p = c :: t) : p c = false := by
  have hne : s.dropWhile p ≠ [] := by simp [h]
  have hh := List.head_dropWhile_not p s hne
  have hc : (s.dropWhile p).head hne = c := by simp only [h, List.head_cons]
  rwa [hc] at hh

theorem trimEnd_prefix (s : Str) : trimEnd s <+: s := by
  obtain ⟨t, ht⟩ := List.dropWhile_suffix (l := s.reverse) isWS
  refine ⟨t.reverse, ?_⟩
  have : (t ++ s.reverse.dropWhile isWS).reverse = s.reverse.reverse := by rw [ht]
  simpa [trimEnd, List.reverse_append] using this

theorem trim_prefix_trimStart (s : Str) : trim s <+: trimStart s := trimEnd_prefix _

theorem trim_head_not_ws {s t : Str} {c : Char} (h : trim s = c :: t) : isWS c = false := by
  obtain ⟨u, hu⟩ := trim_prefix_trimStart s
  rw [h] at hu
  exact dropWhile_head_not (p := isWS) (s := s) (by simpa [trimStart] using hu.symm)

theorem trim_getLast_not_ws {s : Str} {c : Char} (h : (trim s).getLast? = some c) :
    isWS c = false := by
  rw [show trim s = (((trimStart s).reverse).dropWhile isWS).reverse from rfl,
    List.getLast?_reverse] at h
  rcases hd : ((trimStart s).reverse).dropWhile isWS with _ | ⟨x, xs⟩
  · rw [hd] at h; simp at h
  · rw [hd] at h
    simp only [List.head?_cons, Option.some.injEq] at h
    subst h
    exact dropWhile_head_not hd

theorem trimStart_eq_self {s : Str} (h : ∀ c, s.head? = some c → isWS c = false) :
    trimStart s = s := by
  cases s with
  | nil => rfl
  | cons c t => simp [trimStart, List.dropWhile_cons, h c rfl]

theorem trimEnd_eq_self {s : Str} (h : ∀ c, s.getLast? = some c → isWS c = false) :
    trimEnd s = s := by
  have hrev : s.reverse.dropWhile isWS = s.reverse := by
    cases hr : s.reverse with
    | nil => rfl
    | cons c t =>
      have hc : s.getLast? = some c := by
        rw [← List.head?_reverse, hr, List.head?_cons]
      simp [List.dropWhile_cons, h c hc]
  simp [trimEnd, hrev]

theorem trim_eq_self {s : Str} (h1 : ∀ c, s.head? = some c → isWS c = false)
    (h2 : ∀ c, s.getLast? = some c → isWS c = false) : trim s = s := by
  rw [trim, trimStart_eq_self h1, trimEnd_eq_self h2]

theorem trimStart_eq_nil_iff {s : Str} : trimStart s = [] ↔ ∀ c ∈ s, isWS c = true := by
  constructor
  · intro h c hc
    by_cases hw : isWS c = true
    · exact hw
    · exfalso
      have hsplit := List.takeWhile_append_dropWhile (p := isWS) (l := s)
      rw [show s.dropWhile isWS = trimStart s from rfl, h, List.append_nil] at hsplit
      rw [← hsplit] at hc
      exact hw (List.mem_takeWhile_imp hc)
  · intro h
    exact List.dropWhile_eq_nil_iff.2 fun c hc => h c hc

theorem trim_eq_nil_iff {s : Str} : trim s = [] ↔ ∀ c ∈ s, isWS c = true := by
  constructor
  · intro h c hc
    by_cases hw : isWS c = true
    · exact hw
    · exfalso
      have hsplit := List.takeWhile_append_dropWhile (p := isWS) (l := s)
      have hc2 : c ∈ s.takeWhile isWS ∨ c ∈ s.dropWhile isWS := by
        rw [← List.mem_append, hsplit]; exact hc
      rcases hc2 with hc2 | hc2
      · exact hw (List.mem_takeWhile_imp hc2)
      · have : trimEnd (trimStart s) = [] := h
        have hnil : (trimStart s).reverse.dropWhile isWS = [] := by
          have := congrArg List.reverse this
          simpa [trimEnd] using this
        have := List.dropWhile_eq_nil_iff.1 hnil c (by
          rw [List.mem_reverse]; exact hc2)
        exact hw this
  · intro h
    have h1 : trimStart s = [] := trimStart_eq_nil_iff.2 h
    simp [trim, h1, trimEnd]

theorem trim_sublist (s : Str) : List.Sublist (trim s) s :=
  ((trim_prefix_trimStart s).sublist).trans (List.dropWhile_sublist isWS)

theorem trim_ne_nil_of_head {s : Str} {c : Char} {t : Str} (hs : s = c :: t)
    (hc : isWS c = false) : trim s ≠ [] := by
  intro h
  have := trim_eq_nil_iff.1 h c (by rw [hs]; exact List.mem_cons_self c t)
  rw [this] at hc
  exact Bool.false_ne_true hc.symm

/-! ### Lemmas about line splitting -/

theorem splitOnChar_ne_nil (c : Char) (s : Str) : splitOnChar c s ≠ [] := by
  cases s with
  | nil => simp [splitOnChar]
  | cons x xs =>
    rw [splitOnChar]
    rcases h : splitOnChar c xs with _ | ⟨y, ys⟩
    · simp
    · by_cases hx : x = c <;> simp [hx]

theorem splitOnChar_eq_singleton_nil {c : Char} {s : Str}
    (h : splitOnChar c s = [[]]) : s = [] := by
  cases s with
  | nil => rfl
  | cons x xs =>
    exfalso
    rw [splitOnChar] at h
    rcases h2 : splitOnChar c xs with _ | ⟨y, ys⟩
    · exact splitOnChar_ne_nil c xs h2
    · rw [h2] at h
      by_cases hx : x = c
      · simp [hx] at h
      · simp [hx] at h

theorem splitOnChar_append_cons {c : Char} {a : Str} (b : Str) (ha : c ∉ a) :
    splitOnChar c (a ++ c :: b) = a :: splitOnChar c b := by
  induction a with
  | nil =>
    rw [List.nil_append, splitOnChar]
    rcases h : splitOnChar c b with _ | ⟨y, ys⟩
    · exact absurd h (splitOnChar_ne_nil c b)
    · simp
  | cons x a ih =>
    have hx : x ≠ c := fun h => ha (h ▸ List.mem_cons_self x a)
    have ha2 : c ∉ a := fun h => ha (List.mem_cons_of_mem x h)
    rw [List.cons_append, splitOnChar, ih ha2]
    simp [hx]

theorem mem_splitOnChar_not_mem {c : Char} {s l : Str}
    (h : l ∈ splitOnChar c s) : c ∉ l := by
  induction s generalizing l with
  | nil =>
    simp only [splitOnChar, List.mem_singleton] at h
    simp [h]
  | cons x xs ih =>
    rw [splitOnChar] at h
    rcases h2 : splitOnChar c xs with _ | ⟨y, ys⟩
    · exact absurd h2 (splitOnChar_ne_nil c xs)
    · rw [h2] at h
      by_cases hx : x = c
      · simp only [if_pos hx] at h
        rcases List.mem_cons.1 h with h | h
        · simp [h]
        · exact ih (h2 ▸ h)
      · simp only [if_neg hx] at h
        rcases List.mem_cons.1 h with h | h
        · subst h
          intro hmem
          rcases List.mem_cons.1 hmem with h | h
          · exact hx h.symm
          · exact ih (h2 ▸ List.mem_cons_self y ys) h
        · exact ih (h2 ▸ List.mem_cons_of_mem y h)

theorem stripTrailingCR_eq_self {s : Str} (h : s.getLast? ≠ some '\r') :
    stripTrailingCR s = s := by
  rw [stripTrailingCR, if_neg h]

theorem stripTrailingCR_sublist (s : Str) : List.Sublist (stripTrailingCR s) s := by
  rw [stripTrailingCR]
  split
  · exact List.dropLast_sublist s
  · exact List.Sublist.refl s

theorem rustLines_eq_nil_iff {s : Str} : rustLines s = [] ↔ s = [] := by
  constructor
  · intro h
    by_contra hs
    rw [rustLines, if_neg hs] at h
    rcases hp : splitOnChar '\n' s with _ | ⟨y, ys⟩
    · exact splitOnChar_ne_nil '\n' s hp
    · rw [hp] at h
      rcases List.append_eq_nil.1 h with ⟨h1, h2⟩
      have hlast : (y :: ys).getLastD [] = [] := by
        by_contra hne
        rw [if_neg hne] at h2
        exact List.cons_ne_nil _ _ h2
      have hdrop : (y :: ys).dropLast = [] := List.map_eq_nil_iff.1 h1
      have hsing : y :: ys = [[]] := by
        cases ys with
        | nil => simpa [List.getLastD] using hlast
        | cons z zs => simp [List.dropLast] at hdrop
      exact hs (splitOnChar_eq_singleton_nil (hp ▸ hsing))
  · intro h
    rw [h, rustLines, if_pos rfl]

theorem mem_rustLines_no_newline {s l : Str} (h : l ∈ rustLines s) : '\n' ∉ l := by
  rw [rustLines] at h
  split at h
  · simp at h
  · rcases List.mem_append.1 h with h | h
    · obtain ⟨m, hm, hlm⟩ := List.mem_map.1 h
      have hmem : m ∈ splitOnChar '\n' s := List.dropLast_sublist _ |>.subset hm
      intro hc
      exact mem_splitOnChar_not_mem hmem
        ((stripTrailingCR_sublist m).subset (hlm ▸ hc))
    · split at h
      · simp at h
      · rw [List.mem_singleton] at h
        subst h
        rcases hp : splitOnChar '\n' s with _ | ⟨y, ys⟩
        · exact absurd hp (splitOnChar_ne_nil '\n' s)
        · have hmem : (y :: ys).getLastD [] ∈ y :: ys := by
            rw [List.getLastD_cons]
            exact List.getLastD_mem_cons ys y
          have hmem2 : (y :: ys).getLastD [] ∈ splitOnChar '\n' s := by
            rw [hp]; exact hmem
          exact mem_splitOnChar_not_mem hmem2

/-! ### Lemmas about substring search and splitting -/

theorem isPrefixOf_iff {a b : Str} : a.isPrefixOf b = true ↔ a <+: b := by
  induction a generalizing b with
  | nil => simp
  | cons x xs ih =>
    cases b with
    | nil => simp
    | cons y ys =>
      rw [List.isPrefixOf_cons₂, List.cons_prefix_cons]
      simp [ih]

theorem containsSub_iff {sep s : Str} : containsSub sep s = true ↔ sep <:+: s := by
  induction s with
  | nil =>
    rw [containsSub, isPrefixOf_iff]
    simp
  | cons x xs ih =>
    rw [containsSub, Bool.or_eq_true, isPrefixOf_iff, ih, List.infix_cons_iff]

theorem splitFirst_some_eq {sep s a b : Str} (h : splitFirst sep s = some (a, b)) :
    s = a ++ sep ++ b := by
  induction s generalizing a b with
  | nil =>
    rw [splitFirst] at h
    by_cases hsep : sep = []
    · rw [if_pos hsep] at h
      simp only [Option.some.injEq, Prod.mk.injEq] at h
      rw [← h.1, ← h.2, hsep]
      rfl
    · rw [if_neg hsep] at h
      exact Option.noConfusion h
  | cons x xs ih =>
    rw [splitFirst] at h
    by_cases hp : sep.isPrefixOf (x :: xs) = true
    · rw [if_pos hp] at h
      simp only [Option.some.injEq, Prod.mk.injEq] at h
      obtain ⟨t, ht⟩ := isPrefixOf_iff.1 hp
      rw [← h.1, ← h.2, List.nil_append, ← ht, List.drop_left' rfl]
    · rw [if_neg hp] at h
      rcases h2 : splitFirst sep xs with _ | ⟨a2, b2⟩
      · rw [h2] at h
        exact Option.noConfusion h
      · rw [h2] at h
        simp only [Option.map_some', Option.some.injEq, Prod.mk.injEq] at h
        rw [← h.1, ← h.2]
        have := ih h2
        simp [this]

theorem containsSub_eq_isSome (sep s : Str) :
    containsSub sep s = (splitFirst sep s).isSome := by
  induction s with
  | nil =>
    rw [containsSub, splitFirst]
    cases sep with
    | nil => simp
    | cons c cs => simp
  | cons x xs ih =>
    rw [containsSub, splitFirst]
    by_cases hp : sep.isPrefixOf (x :: xs) = true
    · simp [hp]
    · have hp2 : sep.isPrefixOf (x :: xs) = false := Bool.eq_false_iff.2 hp
      rw [hp2, Bool.false_or, if_neg (by simp [hp2]), ih]
      cases splitFirst sep xs <;> rfl

theorem splitFirst_isSome_of_infix {sep s : Str} (h : sep <:+: s) :
    (splitFirst sep s).isSome = true := by
  rw [← containsSub_eq_isSome, containsSub_iff]
  exact h

theorem splitFirst_none_of_not_infix {sep s : Str} (h : ¬ sep <:+: s) :
    splitFirst sep s = none := by
  rcases h2 : splitFirst sep s with _ | ⟨a, b⟩
  · rfl
  · exfalso
    exact h ⟨a, b, by rw [← splitFirst_some_eq h2]⟩

theorem splitFirst_sep_safe {u : Str} (r : Str) (hu : ∀ c ∈ u, c ≠ ' ') :
    splitFirst (" - ".data) (u ++ (" - ".data) ++ r) = some (u, r) := by
  induction u with
  | nil =>
    rw [List.nil_append]
    show splitFirst (" - ".data) (' ' :: '-' :: ' ' :: r) = some ([], r)
    rw [splitFirst]
    have hp : (" - ".data).isPrefixOf (' ' :: '-' :: ' ' :: r) = true := by
      rw [isPrefixOf_iff]
      exact ⟨r, rfl⟩
    rw [if_pos hp]
    rfl
  | cons c u ih =>
    have hc : c ≠ ' ' := hu c (List.mem_cons_self c u)
    have hu2 : ∀ x ∈ u, x ≠ ' ' := fun x hx => hu x (List.mem_cons_of_mem c hx)
    have hshape : (c :: u) ++ (" - ".data) ++ r = c :: (u ++ (" - ".data) ++ r) := by
      simp
    rw [hshape, splitFirst, if_neg ?hneg, ih hu2]
    · rfl
    case hneg =>
      intro hcond
      obtain ⟨t, ht⟩ := isPrefixOf_iff.1 hcond
      have hhead : (' ' : Char) = c := by
        have := congrArg List.head? ht
        simpa using this
      exact hc hhead.symm

theorem isPrefixOf_dash_cons3 (c1 c2 c3 : Char) (rest : Str) :
    (" - ".data).isPrefixOf (c1 :: c2 :: c3 :: rest) = true ↔
      (c1 = ' ' ∧ c2 = '-' ∧ c3 = ' ') := by
  show List.isPrefixOf [' ', '-', ' '] (c1 :: c2 :: c3 :: rest) = true ↔ _
  simp only [List.isPrefixOf_cons₂, List.isPrefixOf_nil_left, Bool.and_true,
    Bool.and_eq_true, beq_iff_eq]
  constructor
  · rintro ⟨h1, h2, h3⟩
    exact ⟨h1.symm, h2.symm, h3.symm⟩
  · rintro ⟨h1, h2, h3⟩
    exact ⟨h1.symm, h2.symm, h3.symm⟩

theorem splitFirst_cons_none {sep : Str} {x : Char} {xs : Str}
    (h : splitFirst sep (x :: xs) = none) : splitFirst sep xs = none := by
  rw [splitFirst] at h
  by_cases hp : sep.isPrefixOf (x :: xs) = true
  · rw [if_pos hp] at h
    exact Option.noConfusion h
  · rw [if_neg hp] at h
    exact Option.map_eq_none'.1 h

theorem splitDash_ne_nil (s : Str) : splitDash s ≠ [] := by
  induction s using splitDash.induct with
  | case1 c1 c2 c3 rest h ih => rw [splitDash, if_pos h]; simp
  | case2 c1 c2 c3 rest h h2 ih => rw [splitDash, if_neg h, h2]; simp
  | case3 c1 c2 c3 rest h y ys h2 ih => rw [splitDash, if_neg h, h2]; simp
  | case4 c1 c2 h2 ih => rw [splitDash, h2]; simp
  | case5 c1 c2 y ys h2 ih => rw [splitDash, h2]; simp
  | case6 c1 => simp [splitDash]
  | case7 => simp [splitDash]

theorem splitDash_of_none {s : Str} (h : splitFirst (" - ".data) s = none) :
    splitDash s = [s] := by
  induction s using splitDash.induct with
  | case1 c1 c2 c3 rest hcond ih =>
    exfalso
    obtain ⟨h1, h2, h3⟩ := hcond
    subst h1; subst h2; subst h3
    have hp : (" - ".data).isPrefixOf (' ' :: '-' :: ' ' :: rest) = true := by
      rw [isPrefixOf_iff]
      exact ⟨rest, rfl⟩
    rw [splitFirst, if_pos hp] at h
    exact Option.noConfusion h
  | case2 c1 c2 c3 rest hcond h2 ih => exact absurd h2 (splitDash_ne_nil _)
  | case3 c1 c2 c3 rest hcond y ys h2 ih =>
    have htail := ih (splitFirst_cons_none h)
    rw [splitDash, if_neg hcond, htail]
  | case4 c1 c2 h2 ih => exact absurd h2 (splitDash_ne_nil _)
  | case5 c1 c2 y ys h2 ih =>
    rw [splitDash, show splitDash [c2] = [[c2]] from rfl]
  | case6 c1 => rfl
  | case7 => rfl

theorem splitDash_of_some {s a b : Str} (h : splitFirst (" - ".data) s = some (a, b)) :
    splitDash s = a :: splitDash b := by
  induction s using splitDash.induct generalizing a b with
  | case1 c1 c2 c3 rest hcond ih =>
    obtain ⟨h1, h2, h3⟩ := hcond
    subst h1; subst h2; subst h3
    have hp : (" - ".data).isPrefixOf (' ' :: '-' :: ' ' :: rest) = true := by
      rw [isPrefixOf_iff]
      exact ⟨rest, rfl⟩
    rw [splitFirst, if_pos hp] at h
    simp only [Option.some.injEq, Prod.mk.injEq] at h
    rw [splitDash, if_pos ⟨rfl, rfl, rfl⟩, ← h.1]
    have hb : rest = b := by
      rw [← h.2]
      rfl
    rw [hb]
  | case2 c1 c2 c3 rest hcond h2 ih => exact absurd h2 (splitDash_ne_nil _)
  | case3 c1 c2 c3 rest hcond y ys h2 ih =>
    rw [splitFirst, if_neg (fun hp => hcond ((isPrefixOf_dash_cons3 c1 c2 c3 rest).1 hp))] at h
    obtain ⟨⟨a2, b2⟩, hsp, heq⟩ := Option.map_eq_some'.1 h
    simp only [Prod.mk.injEq] at heq
    have htail := ih hsp
    rw [splitDash, if_neg hcond, htail, ← heq.1, ← heq.2]
  | case4 c1 c2 h2 ih => exact absurd h2 (splitDash_ne_nil _)
  | case5 c1 c2 y ys h2 ih =>
    exfalso
    have hlen := congrArg List.length (splitFirst_some_eq h)
    simp [List.length_append] at hlen
    omega
  | case6 c1 =>
    exfalso
    have hlen := congrArg List.length (splitFirst_some_eq h)
    simp [List.length_append] at hlen
    omega
  | case7 =>
    exfalso
    have hlen := congrArg List.length (splitFirst_some_eq h)
    simp [List.length_append] at hlen
    omega

theorem splitDash_head? (s : Str) :
    (splitDash s).head? =
      some (match splitFirst (" - ".data) s with | none => s | some p => p.1) := by
  rcases hsp : splitFirst (" - ".data) s with _ | ⟨a, b⟩
  · rw [splitDash_of_none hsp]
    rfl
  · rw [splitDash_of_some hsp]
    rfl

theorem splitDash_getElem1 {s a b : Str} (h : splitFirst (" - ".data) s = some (a, b)) :
    (splitDash s)[1]? =
      some (match splitFirst (" - ".data) b with | none => b | some q => q.1) := by
  rw [splitDash_of_some h]
  rw [List.getElem?_cons_succ, ← List.head?_eq_getElem?]
  exact splitDash_head? b

/-! ### Lemmas about timestamp characters -/

theorem isDigit_ofNat_mod (n : Nat) : (Char.ofNat (48 + n % 10)).isDigit = true := by
  have h : n % 10 < 10 := Nat.mod_lt _ (by omega)
  set k := n % 10 with hk
  interval_cases k <;> decide

theorem digit_facts {c : Char} (h : c.isDigit = true) :
    c ≠ ' ' ∧ c ≠ '-' ∧ c ≠ '\n' ∧ isWS c = false := by
  refine ⟨?_, ?_, ?_, ?_⟩
  · intro hc; subst hc; exact absurd h (by decide)
  · intro hc; subst hc; exact absurd h (by decide)
  · intro hc; subst hc; exact absurd h (by decide)
  · by_contra hws
    rw [Bool.not_eq_false] at hws
    have hd : ((c = ' ' ∨ c = '\t') ∨ c = '\r') ∨ c = '\n' := by
      simpa [isWS, Char.isWhitespace] using hws
    rcases hd with ((hc | hc) | hc) | hc <;> (subst hc; exact absurd h (by decide))

theorem natDigitsCore_digits {fuel n : Nat} {acc : Str}
    (hacc : ∀ c ∈ acc, c.isDigit = true) :
    ∀ c ∈ natDigitsCore fuel n acc, c.isDigit = true := by
  induction fuel generalizing n acc with
  | zero => exact hacc
  | succ fuel ih =>
    rw [natDigitsCore]
    have hcons : ∀ c ∈ Char.ofNat (48 + n % 10) :: acc, c.isDigit = true := by
      intro c hc
      rcases List.mem_cons.1 hc with hc | hc
      · subst hc; exact isDigit_ofNat_mod n
      · exact hacc c hc
    split
    · exact hcons
    · exact ih hcons

theorem natDigitsCore_ne_nil {fuel n : Nat} {acc : Str} (hacc : acc ≠ []) :
    natDigitsCore fuel n acc ≠ [] := by
  induction fuel generalizing n acc with
  | zero => exact hacc
  | succ fuel ih =>
    rw [natDigitsCore]
    split
    · simp
    · exact ih (by simp)

theorem natDigits_ne_nil (n : Nat) : natDigits n ≠ [] := by
  rw [natDigits, natDigitsCore]
  split
  · simp
  · exact natDigitsCore_ne_nil (by simp)

theorem natDigits_digits (n : Nat) : ∀ c ∈ natDigits n, c.isDigit = true :=
  natDigitsCore_digits (by simp)

theorem pad2_ne_nil (n : Nat) : pad2 n ≠ [] := by
  rw [pad2]
  split
  · simp
  · exact natDigits_ne_nil n

theorem pad2_digits (n : Nat) : ∀ c ∈ pad2 n, c.isDigit = true := by
  rw [pad2]
  split
  · intro c hc
    rcases List.mem_cons.1 hc with hc | hc
    · subst hc; decide
    · exact natDigits_digits n c hc
  · exact natDigits_digits n

theorem timestamp_chars (now : Clock) : ∀ c ∈ timestamp now, c.isDigit = true ∨ c = ':' := by
  intro c hc
  rw [timestamp] at hc
  rcases List.mem_append.1 hc with hc | hc
  · rcases List.mem_append.1 hc with hc | hc
    · exact Or.inl (pad2_digits now.hour c hc)
    · rw [List.mem_singleton] at hc
      exact Or.inr hc
  · exact Or.inl (pad2_digits now.minute c hc)

theorem timestamp_cons (now : Clock) :
    ∃ d ts2, timestamp now = d :: ts2 ∧ d.isDigit = true := by
  rcases hp : pad2 now.hour with _ | ⟨d, t⟩
  · exact absurd hp (pad2_ne_nil now.hour)
  · refine ⟨d, t ++ [':'] ++ pad2 now.minute, ?_, ?_⟩
    · rw [timestamp, hp]
      simp
    · exact pad2_digits now.hour d (hp ▸ List.mem_cons_self d t)

/-- First-occurrence analysis of the formatted header line: the first
`" - "` in `"## " ++ ts ++ " - " ++ t` is the one written by the
formatter, because the timestamp contains only digits and a colon. -/
theorem splitFirst_header (ts t : Str) (hts : ts ≠ [])
    (htsc : ∀ c ∈ ts, c.isDigit = true ∨ c = ':') :
    splitFirst (" - ".data) (("## ".data) ++ ts ++ (" - ".data) ++ t) =
      some (("## ".data) ++ ts, t) := by
  have hnosp : ∀ c ∈ ts, c ≠ ' ' := by
    intro c hc
    rcases htsc c hc with h | h
    · exact (digit_facts h).1
    · subst h; decide
  obtain ⟨d, ts2, hd⟩ : ∃ d ts2, ts = d :: ts2 := by
    cases ts with
    | nil => exact absurd rfl hts
    | cons d ts2 => exact ⟨d, ts2, rfl⟩
  have hdne : d ≠ '-' := by
    rcases htsc d (hd ▸ List.mem_cons_self d ts2) with h | h
    · exact (digit_facts h).2.1
    · subst h; decide
  have hsepc : (" - ".data) = ' ' :: '-' :: ' ' :: [] := rfl
  have hno1 : ¬ (" - ".data).isPrefixOf
      ('#' :: '#' :: ' ' :: (ts ++ (" - ".data) ++ t)) = true := by
    intro hp
    have hpre := isPrefixOf_iff.1 hp
    rw [hsepc] at hpre
    obtain ⟨h1, -⟩ := List.cons_prefix_cons.1 hpre
    exact absurd h1 (by decide)
  have hno2 : ¬ (" - ".data).isPrefixOf
      ('#' :: ' ' :: (ts ++ (" - ".data) ++ t)) = true := by
    intro hp
    have hpre := isPrefixOf_iff.1 hp
    rw [hsepc] at hpre
    obtain ⟨h1, -⟩ := List.cons_prefix_cons.1 hpre
    exact absurd h1 (by decide)
  have hno3 : ¬ (" - ".data).isPrefixOf
      (' ' :: (ts ++ (" - ".data) ++ t)) = true := by
    intro hp
    have hpre := isPrefixOf_iff.1 hp
    rw [hsepc] at hpre
    obtain ⟨-, hpre2⟩ := List.cons_prefix_cons.1 hpre
    rw [hd] at hpre2
    have hpre3 : '-' :: ' ' :: [] <+: d :: (ts2 ++ (" - ".data) ++ t) := by
      simpa using hpre2
    obtain ⟨h2, -⟩ := List.cons_prefix_cons.1 hpre3
    exact hdne h2.symm
  have hshape : ("## ".data) ++ ts ++ (" - ".data) ++ t =
      '#' :: '#' :: ' ' :: (ts ++ (" - ".data) ++ t) := by simp
  rw [hshape, splitFirst, if_neg hno1, splitFirst, if_neg hno2, splitFirst,
    if_neg hno3, splitFirst_sep_safe t hnosp]
  rfl

/-! ### Lemmas about the entry parser -/

theorem find_body_start_eq (ls : List Str) (i : Nat) :
    find_body_start ls i =
      match ls.findIdx? (fun l => trim l == []) i with
      | some k => k + 1
      | none => 1 := by
  induction ls generalizing i with
  | nil => rfl
  | cons l rest ih =>
    rw [find_body_start, List.findIdx?_cons]
    by_cases hl : trim l = []
    · rw [if_pos hl, if_pos (beq_iff_eq.2 hl)]
    · rw [if_neg hl, if_neg (by simp [hl]), ih]

/-- Unfolding equation for `parse_entry`. -/
theorem parse_entry_eq (content : Str) :
    parse_entry content =
      if rustLines content = [] then (none, [])
      else if trim ((rustLines content).headD []) = [] then (none, content)
      else (some (trim ((rustLines content).headD [])),
        if find_body_start ((rustLines content).drop 1) 1 < (rustLines content).length then
          trim (List.intercalate ("\n".data)
            ((rustLines content).drop (find_body_start ((rustLines content).drop 1) 1)))
        else []) := rfl

theorem parse_entry_fst_some {content t : Str} (h : (parse_entry content).1 = some t) :
    rustLines content ≠ [] ∧ t = trim ((rustLines content).headD []) ∧ t ≠ [] := by
  rw [parse_entry_eq] at h
  by_cases h1 : rustLines content = []
  · rw [if_pos h1] at h
    exact Option.noConfusion h
  · rw [if_neg h1] at h
    by_cases h2 : trim ((rustLines content).headD []) = []
    · rw [if_pos h2] at h
      exact Option.noConfusion h
    · rw [if_neg h2] at h
      simp only [Option.some.injEq] at h
      exact ⟨h1, h.symm, h ▸ h2⟩

theorem parse_entry_fst_isSome_iff (content : Str) :
    (parse_entry content).1.isSome = true ↔
      (rustLines content ≠ [] ∧ trim ((rustLines content).headD []) ≠ []) := by
  rw [parse_entry_eq]
  by_cases h1 : rustLines content = []
  · rw [if_pos h1]
    simp [h1]
  · rw [if_neg h1]
    by_cases h2 : trim ((rustLines content).headD []) = []
    · rw [if_pos h2]
      constructor
      · intro h
        simp at h
      · intro h
        exact absurd h2 h.2
    · rw [if_neg h2]
      constructor
      · intro _
        exact ⟨h1, h2⟩
      · intro _
        simp

/-! ### Lemmas about the shape of formatted fragments -/

theorem rustLines_append_cons {a : Str} (r : Str) (ha : '\n' ∉ a)
    (hcr : a.getLast? ≠ some '\r') :
    ∃ rest, rustLines (a ++ '\n' :: r) = a :: rest := by
  have hs : a ++ '\n' :: r ≠ [] := by simp
  rw [rustLines, if_neg hs, splitOnChar_append_cons r ha]
  rcases hy : splitOnChar '\n' r with _ | ⟨y, ys⟩
  · exact absurd hy (splitOnChar_ne_nil _ _)
  · show ∃ rest,
      List.map stripTrailingCR (a :: y :: ys).dropLast ++
        (if (a :: y :: ys).getLastD [] = [] then []
         else [(a :: y :: ys).getLastD []]) = a :: rest
    have h1 : (a :: y :: ys).dropLast = a :: (y :: ys).dropLast := rfl
    have h2 : (a :: y :: ys).getLastD [] = (y :: ys).getLastD [] := by
      rw [List.getLastD_cons, List.getLastD_cons, List.getLastD_cons]
    rw [h1, List.map_cons, stripTrailingCR_eq_self hcr, h2, List.cons_append]
    exact ⟨_, rfl⟩

theorem rustLines_single_line {a : Str} (ha : '\n' ∉ a)
    (hcr : a.getLast? ≠ some '\r') :
    rustLines (a ++ ['\n']) = [a] := by
  have hs : a ++ ['\n'] ≠ [] := by simp
  have hsplit : splitOnChar '\n' (a ++ '\n' :: ([] : Str)) = a :: splitOnChar '\n' [] :=
    splitOnChar_append_cons [] ha
  rw [rustLines, if_neg hs, hsplit]
  show List.map stripTrailingCR (a :: splitOnChar '\n' []).dropLast ++
      (if (a :: splitOnChar '\n' []).getLastD [] = [] then []
       else [(a :: splitOnChar '\n' []).getLastD []]) = [a]
  rw [show splitOnChar '\n' ([] : Str) = [[]] from rfl]
  simp [stripTrailingCR_eq_self hcr, List.getLastD_cons]

/-! ### Lemmas about title extraction from formatted headers -/

/-- Unfolding equation for `line_title`. -/
theorem line_title_eq (line : Str) :
    line_title line =
      if ("## ".data).isPrefixOf (trim line) && containsSub (" - ".data) (trim line) then
        (splitDash (trim line))[1]?
      else if ("# ".data).isPrefixOf (trim line) || ("### ".data).isPrefixOf (trim line) then
        some (trim ((trim line).dropWhile (fun c => c == '#')))
      else none := rfl

/-- The header line written by the formatter extracts back to exactly the
title, provided the title does not itself contain `" - "`. -/
theorem line_title_header {ts t : Str} (hts : ts ≠ [])
    (htsc : ∀ c ∈ ts, c.isDigit = true ∨ c = ':')
    (ht : t ≠ [])
    (htl : ∀ c, t.getLast? = some c → isWS c = false)
    (hnd : ¬ (" - ".data) <:+: t) :
    line_title (("## ".data) ++ ts ++ (" - ".data) ++ t) = some t := by
  set L := ("## ".data) ++ ts ++ (" - ".data) ++ t with hL
  have htrim : trim L = L := by
    apply trim_eq_self
    · intro c hc
      have hsh : L = '#' :: ('#' :: (' ' :: (ts ++ (" - ".data) ++ t))) := by
        rw [hL]; simp
      rw [hsh] at hc
      simp only [List.head?_cons, Option.some.injEq] at hc
      subst hc
      decide
    · intro c hc
      have hlast : L.getLast? = t.getLast? := by
        rw [hL]
        rcases hg : t.getLast? with _ | c2
        · rw [List.getLast?_eq_none_iff] at hg
          exact absurd hg ht
        · rw [List.getLast?_append, hg]
          rfl
      rw [hlast] at hc
      exact htl c hc
  have hsf : splitFirst (" - ".data) L = some (("## ".data) ++ ts, t) := by
    rw [hL]
    exact splitFirst_header ts t hts htsc
  have hbranch : (("## ".data).isPrefixOf (trim L) &&
      containsSub (" - ".data) (trim L)) = true := by
    rw [htrim, Bool.and_eq_true]
    constructor
    · rw [isPrefixOf_iff, hL]
      exact ⟨ts ++ (" - ".data) ++ t, by simp⟩
    · rw [containsSub_eq_isSome, hsf]
      rfl
  rw [line_title_eq, if_pos hbranch, htrim, splitDash_getElem1 hsf,
    splitFirst_none_of_not_infix hnd]

/-! ### Lemmas about the summary scan -/

theorem scan_step_eq (fs : Int → Option Str) (allowed_weekdays : List Weekday)
    (today : Int) (st : ScanState) (i : Nat) :
    scan_step fs allowed_weekdays today st i =
      { total_entries :=
          st.total_entries + (if presentB fs allowed_weekdays today i then 1 else 0),
        total_eligible_days :=
          st.total_eligible_days + (if eligibleB allowed_weekdays today i then 1 else 0),
        entries_by_day :=
          st.entries_by_day ++ (record_of fs allowed_weekdays today i).toList } := by
  simp only [scan_step, presentB, record_of, eligibleB]
  by_cases he : allowed_weekdays.contains (weekday (today - (i : Int))) = true
  · rw [if_pos he]
    simp only [he, Bool.true_and]
    rcases hf : fs (today - (i : Int)) with _ | content
    · simp
    · by_cases hc : trim content = []
      · simp [hc]
      · simp [hc]
  · have hmem : weekday (today - (i : Int)) ∉ allowed_weekdays := fun hm =>
      he (List.elem_iff.2 hm)
    rw [if_neg he]
    simp [hmem]

theorem record_of_isSome (fs : Int → Option Str) (allowed_weekdays : List Weekday)
    (today : Int) (i : Nat) :
    (record_of fs allowed_weekdays today i).isSome = presentB fs allowed_weekdays today i := by
  simp only [record_of, presentB, eligibleB]
  by_cases he : allowed_weekdays.contains (weekday (today - (i : Int))) = true
  · rw [if_pos he]
    simp only [he, Bool.true_and]
    rcases hf : fs (today - (i : Int)) with _ | content
    · rfl
    · by_cases hc : trim content = []
      · simp [hc]
      · simp [hc]
  · rw [if_neg he, Bool.eq_false_iff.2 he, Bool.false_and]
    rfl

theorem foldl_scan_step (fs : Int → Option Str) (allowed_weekdays : List Weekday)
    (today : Int) (L : List Nat) :
    ∀ st : ScanState,
      L.foldl (scan_step fs allowed_weekdays today) st =
        { total_entries :=
            st.total_entries + L.countP (presentB fs allowed_weekdays today),
          total_eligible_days :=
            st.total_eligible_days + L.countP (eligibleB allowed_weekdays today),
          entries_by_day :=
            st.entries_by_day ++ L.filterMap (record_of fs allowed_weekdays today) } := by
  induction L with
  | nil =>
    intro st
    simp
  | cons i L ih =>
    intro st
    rw [List.foldl_cons, ih, scan_step_eq]
    rcases hrec : record_of fs allowed_weekdays today i with _ | r
    · have hp : presentB fs allowed_weekdays today i = false := by
        rw [← record_of_isSome, hrec]
        rfl
      simp [List.countP_cons, List.filterMap_cons, hrec, hp]
      omega
    · have hp : presentB fs allowed_weekdays today i = true := by
        rw [← record_of_isSome, hrec]
        rfl
      simp [List.countP_cons, List.filterMap_cons, hrec, hp, List.append_assoc]
      omega

theorem summary_scan_eq (fs : Int → Option Str) (today : Int) (days : Nat)
    (allowed_weekdays : List Weekday) :
    summary_scan fs today days allowed_weekdays =
      { total_entries := (List.range days).countP (presentB fs allowed_weekdays today),
        total_eligible_days :=
          (List.range days).countP (eligibleB allowed_weekdays today),
        entries_by_day :=
          (List.range days).filterMap (record_of fs allowed_weekdays today) } := by
  rw [summary_scan, foldl_scan_step]
  simp

theorem length_filterMap_eq_countP {α β : Type} (f : α → Option β) (L : List α) :
    (L.filterMap f).length = L.countP (fun a => (f a).isSome) := by
  induction L with
  | nil => rfl
  | cons a L ih =>
    rw [List.filterMap_cons, List.countP_cons]
    rcases hf : f a with _ | b
    · simp [hf, ih]
    · simp [hf, ih]

theorem default_allowed_eq :
    default_summary_days.filterMap parse_weekday =
      [Weekday.mon, .tue, .wed, .thu, .fri] := by decide

theorem weekday_sub_emod (t i : Int) : weekday (t - i) = weekday (t % 7 - i) := by
  have key : (t - i) % 7 = (t % 7 - i) % 7 := by
    conv_lhs => rw [Int.sub_emod]
    conv_rhs => rw [Int.sub_emod]
    rw [Int.emod_emod_of_dvd t (dvd_refl 7)]
  unfold weekday
  rw [key]

/-- Any window of seven consecutive days contains each weekday exactly
once, so exactly five of them are Monday-Friday. -/
theorem countP_eligible_week (t : Int) :
    (List.range 7).countP (eligibleB [Weekday.mon, .tue, .wed, .thu, .fri] t) = 5 := by
  have h0 : 0 ≤ t % 7 := Int.emod_nonneg t (by norm_num)
  have h1 : t % 7 < 7 := Int.emod_lt_of_pos t (by norm_num)
  have hw : ∀ i ∈ List.range 7,
      eligibleB [Weekday.mon, .tue, .wed, .thu, .fri] t i = true ↔
        eligibleB [Weekday.mon, .tue, .wed, .thu, .fri] (t % 7) i = true := by
    intro i _
    rw [eligibleB, eligibleB, weekday_sub_emod t (i : Int)]
  rw [List.countP_congr hw]
  set r := t % 7 with hr
  interval_cases r <;> decide

/-- C1: `summarize_logs` iterates over exactly `days` dates `today - i`
for `i` in `0 .. days`; a date is eligible exactly when its weekday lies
in the set resolved from `config.summary_days`; it is counted in
`total_entries` exactly when it is eligible and its file exists with
non-empty trimmed content; the reported consistency equals
`total_entries / eligible_days * 100`; and in particular, for a 7-day
window with the Monday-Friday configuration and exactly 3 entries
present, the report shows `eligible_days = 5` and 60 percent
consistency. -/
theorem summarize_logs_spec (fs : Int → Option Str) (today : Int) (days : Nat)
    (config : Config) :
    (summarize_logs fs today days config =
      (if (List.range days).filterMap
            (record_of fs (config.summary_days.filterMap parse_weekday) today) = [] then
        SummaryOutput.noEntries days
      else
        SummaryOutput.report
          ((List.range days).countP
            (presentB fs (config.summary_days.filterMap parse_weekday) today))
          ((List.range days).countP
            (eligibleB (config.summary_days.filterMap parse_weekday) today))
          ((((List.range days).countP
              (presentB fs (config.summary_days.filterMap parse_weekday) today) : ℚ)) /
            (((List.range days).countP
              (eligibleB (config.summary_days.filterMap parse_weekday) today) : ℚ)) * 100)
          (((List.range days).filterMap
              (record_of fs (config.summary_days.filterMap parse_weekday) today)).map
            fun p => (p.1, day_display p.2)))) ∧
    (days = 7 → config.summary_days = default_summary_days →
      (List.range days).countP
          (presentB fs (config.summary_days.filterMap parse_weekday) today) = 3 →
      (List.range days).countP
          (eligibleB (config.summary_days.filterMap parse_weekday) today) = 5 ∧
        ∃ daily, summarize_logs fs today days config =
          SummaryOutput.report 3 5 60 daily) := by
  have hmain : summarize_logs fs today days config =
      (if (List.range days).filterMap
            (record_of fs (config.summary_days.filterMap parse_weekday) today) = [] then
        SummaryOutput.noEntries days
      else
        SummaryOutput.report
          ((List.range days).countP
            (presentB fs (config.summary_days.filterMap parse_weekday) today))
          ((List.range days).countP
            (eligibleB (config.summary_days.filterMap parse_weekday) today))
          ((((List.range days).countP
              (presentB fs (config.summary_days.filterMap parse_weekday) today) : ℚ)) /
            (((List.range days).countP
              (eligibleB (config.summary_days.filterMap parse_weekday) today) : ℚ)) * 100)
          (((List.range days).filterMap
              (record_of fs (config.summary_days.filterMap parse_weekday) today)).map
            fun p => (p.1, day_display p.2))) := by
    simp only [summarize_logs, summary_scan_eq]
  refine ⟨hmain, ?_⟩
  intro h7 hcfg h3
  subst h7
  rw [hcfg, default_allowed_eq] at h3 ⊢
  have hcount5 : (List.range 7).countP
      (eligibleB [Weekday.mon, .tue, .wed, .thu, .fri] today) = 5 :=
    countP_eligible_week today
  refine ⟨hcount5, ?_⟩
  have hlen : ((List.range 7).filterMap
      (record_of fs [Weekday.mon, .tue, .wed, .thu, .fri] today)).length = 3 := by
    rw [length_filterMap_eq_countP]
    simp only [record_of_isSome]
    exact h3
  have hne : (List.range 7).filterMap
      (record_of fs [Weekday.mon, .tue, .wed, .thu, .fri] today) ≠ [] := by
    intro h0
    rw [h0] at hlen
    simp at hlen
  have hq : ((3 : Nat) : ℚ) / ((5 : Nat) : ℚ) * 100 = 60 := by norm_num
  rw [hmain, hcfg, default_allowed_eq, if_neg hne, h3, hcount5, hq]
  exact ⟨_, rfl⟩

/-- Witness for C1 at a concrete seven-day window with three recorded
weekdays. -/
theorem summarize_logs_spec_witness :
    (List.range 7).countP
        (presentB (fun d => if d = 0 ∨ d = -3 ∨ d = -4 then some ("x".data) else none)
          ((Config.mk default_summary_days).summary_days.filterMap parse_weekday) 0) = 3 ∧
      (List.range 7).countP
          (eligibleB ((Config.mk default_summary_days).summary_days.filterMap parse_weekday) 0) = 5 ∧
        ∃ daily, summarize_logs
            (fun d => if d = 0 ∨ d = -3 ∨ d = -4 then some ("x".data) else none) 0 7
            (Config.mk default_summary_days) = SummaryOutput.report 3 5 60 daily := by
  have h3 : (List.range 7).countP
      (presentB (fun d => if d = 0 ∨ d = -3 ∨ d = -4 then some ("x".data) else none)
        ((Config.mk default_summary_days).summary_days.filterMap parse_weekday) 0) = 3 := by
    decide
  exact ⟨h3, (summarize_logs_spec
    (fun d => if d = 0 ∨ d = -3 ∨ d = -4 then some ("x".data) else none) 0 7
    (Config.mk default_summary_days)).2 rfl rfl h3⟩

/-- C5: whenever `parse_entry` returns no title, the returned body is the
raw input verbatim, character for character; this covers the empty input
(which yields `(none, "")`) and any input whose first line is blank after
trimming. -/
theorem parse_entry_none_verbatim (raw : Str) :
    ((parse_entry raw).1 = none → (parse_entry raw).2 = raw) ∧
      parse_entry ([] : Str) = (none, []) := by
  constructor
  · intro h
    rw [parse_entry_eq] at h ⊢
    by_cases h1 : rustLines raw = []
    · rw [if_pos h1] at h ⊢
      exact (rustLines_eq_nil_iff.1 h1).symm
    · rw [if_neg h1] at h ⊢
      by_cases h2 : trim ((rustLines raw).headD []) = []
      · rw [if_pos h2]
      · rw [if_neg h2] at h
        exact Option.noConfusion h
  · rfl

/-- Witness for C5 on an input whose first line is blank. -/
theorem parse_entry_none_verbatim_witness :
    (parse_entry ("\nBlank first line\nrest".data)).2 =
      ("\nBlank first line\nrest".data) :=
  (parse_entry_none_verbatim ("\nBlank first line\nrest".data)).1 (by decide)

/-- C6: for input whose first line is non-blank after trimming, the title
is the trimmed first line, and the body is the lines starting just after
the first blank line among `lines[1..]` (index `k` in the full line
array, body from `k + 1`), joined with newlines and trimmed; when no
blank line exists the body is every line after the first; and when the
start index is beyond the last line the body is empty. -/
theorem parse_entry_title_body (raw : Str)
    (h1 : rustLines raw ≠ [])
    (h2 : trim ((rustLines raw).headD []) ≠ []) :
    parse_entry raw =
      (some (trim ((rustLines raw).headD [])),
        match ((rustLines raw).drop 1).findIdx? (fun l => trim l == []) 1 with
        | some k =>
          if k + 1 < (rustLines raw).length then
            trim (List.intercalate ("\n".data) ((rustLines raw).drop (k + 1)))
          else []
        | none =>
          if 1 < (rustLines raw).length then
            trim (List.intercalate ("\n".data) ((rustLines raw).drop 1))
          else []) := by
  rw [parse_entry_eq, if_neg h1, if_neg h2, find_body_start_eq]
  rcases h : ((rustLines raw).drop 1).findIdx? (fun l => trim l == []) 1 with _ | k <;> rfl

/-- Witness for C6 on the specification's own example. -/
theorem parse_entry_title_body_witness :
    rustLines ("Title\nNo blank line\nMore text".data) ≠ [] ∧
      parse_entry ("Title\nNo blank line\nMore text".data) =
        (some ("Title".data), ("No blank line\nMore text".data)) :=
  ⟨by decide,
    (parse_entry_title_body ("Title\nNo blank line\nMore text".data)
      (by decide) (by decide)).trans (by decide)⟩

/-- C10: `parse_entry` returns a title exactly when the input has at
least one line and its first line is non-blank after trimming; any
returned title equals the trimmed first line, is non-empty, and carries
no leading or trailing whitespace. -/
theorem parse_entry_title_inv (raw : Str) :
    ((parse_entry raw).1.isSome = true ↔
      (rustLines raw ≠ [] ∧ trim ((rustLines raw).headD []) ≠ [])) ∧
    (∀ t, (parse_entry raw).1 = some t →
      t = trim ((rustLines raw).headD []) ∧ t ≠ [] ∧
      (∀ c, t.head? = some c → c.isWhitespace = false) ∧
      (∀ c, t.getLast? = some c → c.isWhitespace = false)) := by
  refine ⟨parse_entry_fst_isSome_iff raw, ?_⟩
  intro t ht
  obtain ⟨hne, hteq, htne⟩ := parse_entry_fst_some ht
  refine ⟨hteq, htne, ?_, ?_⟩
  · intro c hc
    rcases ht2 : t with _ | ⟨c2, t2⟩
    · rw [ht2] at hc
      exact Option.noConfusion hc
    · rw [ht2] at hc
      simp only [List.head?_cons, Option.some.injEq] at hc
      have hx : trim ((rustLines raw).headD []) = c2 :: t2 := by rw [← hteq, ht2]
      have hws := trim_head_not_ws hx
      rw [hc] at hws
      exact hws
  · intro c hc
    rw [hteq] at hc
    exact trim_getLast_not_ws hc

/-- Witness for C10: a padded first line is returned trimmed. -/
theorem parse_entry_title_inv_witness :
    ("Hi".data) = trim ((rustLines ("  Hi \nrest".data)).headD []) ∧
      ("Hi".data) ≠ ([] : Str) :=
  have h := (parse_entry_title_inv ("  Hi \nrest".data)).2 ("Hi".data) (by decide)
  ⟨h.1, h.2.1⟩

/-- C7: `format_entry` produces exactly one of four shapes, determined by
whether a non-empty title is present and whether the body is empty, with
the timestamp rendered as zero-padded `HH:MM`. -/
theorem format_entry_shapes (title : Option Str) (body : Str) (now : Clock) :
    (∀ t, title = some t → t ≠ [] →
      (body = [] →
        format_entry title body now =
          ("## ".data) ++ timestamp now ++ (" - ".data) ++ t ++ ['\n']) ∧
      (body ≠ [] →
        format_entry title body now =
          ("## ".data) ++ timestamp now ++ (" - ".data) ++ t ++
            ['\n', '\n'] ++ body ++ ['\n'])) ∧
    ((title = none ∨ title = some []) →
      (body = [] → format_entry title body now = []) ∧
      (body ≠ [] → format_entry title body now = body ++ ['\n'])) := by
  constructor
  · rintro t rfl htne
    constructor
    · intro hb
      rw [format_entry, if_neg htne, if_pos hb]
    · intro hb
      rw [format_entry, if_neg htne, if_neg hb]
  · rintro (rfl | rfl)
    · constructor
      · intro hb
        rw [format_entry, if_pos hb]
      · intro hb
        rw [format_entry, if_neg hb]
    · constructor
      · intro hb
        rw [format_entry, if_pos rfl, if_pos hb]
      · intro hb
        rw [format_entry, if_pos rfl, if_neg hb]

/-- Witness for C7 with a concrete clock. -/
theorem format_entry_shapes_witness :
    format_entry (some ("T".data)) ([] : Str) ⟨9, 5⟩ = ("## 09:05 - T\n".data) :=
  (((format_entry_shapes (some ("T".data)) [] ⟨9, 5⟩).1 ("T".data) rfl
    (by decide)).1 rfl).trans (by decide)

/-- C8: when the parsed-and-formatted fragment is blank, `append_to_log`
leaves the file state unchanged: no file is created and existing content
is untouched. -/
theorem append_to_log_noop (file : Option Str) (content : Str) (now : Clock)
    (h : trim (format_entry (parse_entry content).1 (parse_entry content).2 now) = []) :
    append_to_log file content now = file := by
  simp only [append_to_log]
  rw [if_neg (fun hne => hne h)]

/-- Witness for C8: empty input appended to an existing file. -/
theorem append_to_log_noop_witness :
    append_to_log (some ("x".data)) ([] : Str) ⟨9, 5⟩ = some ("x".data) :=
  append_to_log_noop (some ("x".data)) [] ⟨9, 5⟩ (by decide)

/-- C9: when the fragment is non-blank, `append_to_log` appends exactly
the fragment followed by one newline after any pre-existing content
(creating the file when absent, never truncating); in particular
appending the example entry to an absent file yields exactly the
expected header, body and trailing newlines. -/
theorem append_to_log_writes (file : Option Str) (content : Str) (now : Clock)
    (h : trim (format_entry (parse_entry content).1 (parse_entry content).2 now) ≠ []) :
    (append_to_log file content now =
      some (file.getD [] ++
        format_entry (parse_entry content).1 (parse_entry content).2 now ++ ['\n'])) ∧
    (file = none → content = ("Fixed bug\n\nResolved the issue.".data) →
      append_to_log file content now =
        some (("## ".data) ++ timestamp now ++
          (" - Fixed bug\n\nResolved the issue.\n\n".data))) := by
  have hmain : append_to_log file content now =
      some (file.getD [] ++
        format_entry (parse_entry content).1 (parse_entry content).2 now ++ ['\n']) := by
    simp only [append_to_log]
    rw [if_pos h]
  refine ⟨hmain, ?_⟩
  rintro rfl rfl
  rw [hmain]
  have hp : parse_entry ("Fixed bug\n\nResolved the issue.".data) =
      (some ("Fixed bug".data), ("Resolved the issue.".data)) := by decide
  rw [hp]
  rw [show (none : Option Str).getD [] = [] from rfl]
  rw [format_entry, if_neg (by decide), if_neg (by decide)]
  simp only [List.nil_append, List.append_assoc]
  congr 1

/-- Witness for C9 at a concrete clock time. -/
theorem append_to_log_writes_witness :
    append_to_log none ("Fixed bug\n\nResolved the issue.".data) ⟨14, 3⟩ =
      some ("## 14:03 - Fixed bug\n\nResolved the issue.\n\n".data) :=
  ((append_to_log_writes none ("Fixed bug\n\nResolved the issue.".data) ⟨14, 3⟩
    (by decide)).2 rfl rfl).trans (by decide)

/-- C2 counterexample: on the line `"## 09:00 - a - b"` the code appends
the title `"a"` (the piece between the first and second `" - "`), while
everything after the first occurrence of `" - "` is `"a - b"`. -/
theorem extract_entry_titles_cex :
    extract_entry_titles ("## 09:00 - a - b".data) = [("a".data)] ∧
      (splitFirst (" - ".data) (trim ("## 09:00 - a - b".data))).map Prod.snd =
        some ("a - b".data) ∧
      ("a".data) ≠ ("a - b".data) :=
  ⟨by decide, by decide, by decide⟩

/-- C2 amended: for every line of the content that, after trimming,
starts with `"## "` and contains `" - "`, the appended title is
everything after the first occurrence of `" - "` truncated at the next
occurrence of `" - "` when the remainder contains one (Rust
`split(" - ").nth(1)` semantics), and `extract_entry_titles` collects
exactly these per-line titles in order. -/
theorem extract_entry_titles_amended (content : Str) :
    extract_entry_titles content = (rustLines content).filterMap line_title ∧
    (∀ line ∈ rustLines content,
      ("## ".data).isPrefixOf (trim line) = true →
      containsSub (" - ".data) (trim line) = true →
      ∃ pre rest, splitFirst (" - ".data) (trim line) = some (pre, rest) ∧
        line_title line =
          some (match splitFirst (" - ".data) rest with
                | none => rest
                | some q => q.1)) := by
  refine ⟨rfl, ?_⟩
  intro line _ hpre hcon
  have hsome : (splitFirst (" - ".data) (trim line)).isSome = true := by
    rw [← containsSub_eq_isSome]
    exact hcon
  rcases hsp : splitFirst (" - ".data) (trim line) with _ | ⟨pre, rest⟩
  · rw [hsp] at hsome
    simp at hsome
  · refine ⟨pre, rest, rfl, ?_⟩
    rw [line_title_eq, if_pos (by rw [hpre, hcon]; rfl)]
    exact splitDash_getElem1 hsp

/-- Witness for the amended C2 on a header line. -/
theorem extract_entry_titles_amended_witness :
    ∃ pre rest,
      splitFirst (" - ".data) (trim ("## 10:00 - Review".data)) = some (pre, rest) ∧
        line_title ("## 10:00 - Review".data) =
          some (match splitFirst (" - ".data) rest with
                | none => rest
                | some q => q.1) :=
  (extract_entry_titles_amended ("## 10:00 - Review".data)).2
    ("## 10:00 - Review".data) (by decide) (by decide) (by decide)

/-- C3 counterexample: for raw text `"a - b"` — a title containing
`" - "` — the round trip through parse, format and extract yields the
title list `["a"]`, which does not recover the original title
`"a - b"`. -/
theorem roundtrip_cex :
    parse_entry ("a - b".data) = (some ("a - b".data), []) ∧
      extract_entry_titles
          (format_entry (some ("a - b".data)) [] ⟨12, 34⟩) = [("a".data)] ∧
      ¬ ("a - b".data) ∈ extract_entry_titles
          (format_entry (some ("a - b".data)) [] ⟨12, 34⟩) :=
  ⟨by decide, by decide, by decide⟩

/-- C3 amended: for every raw text parsed to a title (non-blank first
line) that does not itself contain `" - "`, composing parse, format (at
any injected clock time) and extract recovers the original title as the
first extracted element — both when the parsed body is empty and when it
is non-empty. -/
theorem roundtrip_amended (raw t : Str) (now : Clock)
    (ht : (parse_entry raw).1 = some t)
    (hnd : ¬ (" - ".data) <:+: t) :
    (extract_entry_titles
      (format_entry (parse_entry raw).1 (parse_entry raw).2 now)).head? = some t := by
  obtain ⟨hne, hteq, htne⟩ := parse_entry_fst_some ht
  have hhead_mem : (rustLines raw).headD [] ∈ rustLines raw := by
    rcases hr : rustLines raw with _ | ⟨y, ys⟩
    · exact absurd hr hne
    · rw [List.headD_cons]
      exact List.mem_cons_self y ys
  have hnl_t : '\n' ∉ t := fun hmem =>
    mem_rustLines_no_newline hhead_mem ((trim_sublist _).subset (hteq ▸ hmem))
  have htl : ∀ c, t.getLast? = some c → isWS c = false := fun c hc =>
    trim_getLast_not_ws (hteq ▸ hc)
  obtain ⟨d, ts2, htseq, hdd⟩ := timestamp_cons now
  have hts_ne : timestamp now ≠ [] := by
    rw [htseq]
    simp
  have hnlh : '\n' ∉ ("## ".data) ++ timestamp now ++ (" - ".data) ++ t := by
    intro hmem
    rcases List.mem_append.1 hmem with hmem | hmem
    · rcases List.mem_append.1 hmem with hmem | hmem
      · rcases List.mem_append.1 hmem with hmem | hmem
        · exact absurd hmem (by decide)
        · rcases timestamp_chars now _ hmem with h | h
          · exact absurd rfl (digit_facts h).2.2.1
          · exact absurd h (by decide)
      · exact absurd hmem (by decide)
    · exact hnl_t hmem
  have hcrh : (("## ".data) ++ timestamp now ++ (" - ".data) ++ t).getLast? ≠
      some '\r' := by
    rw [List.getLast?_append]
    rcases hg : t.getLast? with _ | c
    · rw [List.getLast?_eq_none_iff] at hg
      exact absurd hg htne
    · intro hcon
      have hc : c = '\r' := by simpa using hcon
      have hw := htl c hg
      rw [hc] at hw
      exact absurd hw (by decide)
  have hextract : line_title (("## ".data) ++ timestamp now ++ (" - ".data) ++ t) =
      some t :=
    line_title_header hts_ne (timestamp_chars now) htne htl hnd
  rw [ht]
  by_cases hb : (parse_entry raw).2 = []
  · have hform : format_entry (some t) (parse_entry raw).2 now =
        (("## ".data) ++ timestamp now ++ (" - ".data) ++ t) ++ ['\n'] := by
      rw [format_entry, if_neg htne, if_pos hb]
    rw [hform, extract_entry_titles, rustLines_single_line hnlh hcrh,
      List.filterMap_cons_some hextract]
    rfl
  · have hform : format_entry (some t) (parse_entry raw).2 now =
        (("## ".data) ++ timestamp now ++ (" - ".data) ++ t) ++
          '\n' :: ('\n' :: ((parse_entry raw).2 ++ ['\n'])) := by
      rw [format_entry, if_neg htne, if_neg hb]
      simp [List.append_assoc]
    obtain ⟨rest, hrest⟩ :=
      rustLines_append_cons (a := ("## ".data) ++ timestamp now ++ (" - ".data) ++ t)
        ('\n' :: ((parse_entry raw).2 ++ ['\n'])) hnlh hcrh
    rw [hform, extract_entry_titles, hrest, List.filterMap_cons_some hextract]
    rfl

/-- Witness for the amended C3 on a two-part entry. -/
theorem roundtrip_amended_witness :
    (extract_entry_titles
      (format_entry (parse_entry ("Hello\n\nWorld".data)).1
        (parse_entry ("Hello\n\nWorld".data)).2 ⟨9, 5⟩)).head? =
      some ("Hello".data) :=
  roundtrip_amended ("Hello\n\nWorld".data) ("Hello".data) ⟨9, 5⟩
    (by decide) (by decide)

theorem day_display_fallback_eq (L : List Str) :
    day_display_fallback L =
      match L.find? (fun x => !(trim x == [])) with
      | some l => [trim l]
      | none => [] := by
  induction L with
  | nil => rfl
  | cons l rest ih =>
    rw [day_display_fallback]
    by_cases hl : trim l = []
    · rw [if_neg (by simp [hl]), ih,
        List.find?_cons_of_neg rest (by simp [hl])]
    · rw [if_pos (by simp [hl]),
        List.find?_cons_of_pos rest (by simp [hl])]

/-- C4 counterexample: a recorded summary day whose first two lines are
blank but whose third line is not displays nothing, although the first
non-blank line of the entire content exists. -/
theorem fallback_cex :
    summarize_logs (fun d => if d = 0 then some ("\n\n  hi".data) else none) 0 1
        (Config.mk default_summary_days) =
      SummaryOutput.report 1 1 100 [(0, [])] ∧
      (rustLines ("\n\n  hi".data)).find? (fun l => !(trim l == [])) =
        some ("  hi".data) ∧
      extract_entry_titles ("\n\n  hi".data) = [] := by
  refine ⟨?_, by decide, by decide⟩
  have hscan : summary_scan (fun d => if d = 0 then some ("\n\n  hi".data) else none)
      0 1 (default_summary_days.filterMap parse_weekday) =
      ⟨1, 1, [(0, ("\n\n  hi".data))]⟩ := by decide
  have hd : day_display ("\n\n  hi".data) = [] := by decide
  simp only [summarize_logs]
  rw [hscan]
  rw [if_neg (by simp)]
  simp only [List.map_cons, List.map_nil, hd]
  norm_num

/-- C4 amended: for every recorded day in the summary whose content
yields an empty extracted-title list, the displayed fallback is the
trimmed first non-blank line among the FIRST TWO lines of the content
only, and nothing exactly when the first two lines (or all lines, if
fewer) are blank. -/
theorem fallback_amended (fs : Int → Option Str) (today : Int) (days : Nat)
    (allowed_weekdays : List Weekday) (date : Int) (content : Str)
    (_hrec : (date, content) ∈ (summary_scan fs today days allowed_weekdays).entries_by_day)
    (htitles : extract_entry_titles content = []) :
    (day_display content = [] ↔ ∀ l ∈ (rustLines content).take 2, trim l = []) ∧
    (∀ l, ((rustLines content).take 2).find? (fun x => !(trim x == [])) = some l →
      day_display content = [trim l]) := by
  have hdd : day_display content =
      day_display_fallback ((rustLines content).take 2) := by
    rw [day_display, htitles, if_neg (by simp)]
  constructor
  · rw [hdd, day_display_fallback_eq]
    rcases hf : ((rustLines content).take 2).find? (fun x => !(trim x == [])) with _ | l
    · rw [List.find?_eq_none] at hf
      constructor
      · intro _ l hl
        have := hf l hl
        simpa using this
      · intro _
        rfl
    · constructor
      · intro habs
        exact absurd habs (by simp)
      · intro hall
        have hmem := List.mem_of_find?_eq_some hf
        have hblank := hall l hmem
        have hp := List.find?_some hf
        rw [hblank] at hp
        simp at hp
  · intro l hl
    rw [hdd, day_display_fallback_eq, hl]

/-- Witness for the amended C4 on a recorded day with a blank first line. -/
theorem fallback_amended_witness :
    day_display ("\nx\ny".data) = [("x".data)] :=
  ((fallback_amended (fun d => if d = 0 then some ("\nx\ny".data) else none) 0 1
      (default_summary_days.filterMap parse_weekday) 0 ("\nx\ny".data)
      (by decide) (by decide)).2 ("x".data) (by decide)).trans (by decide)

end Dailylog
